import Mathlib

/-!
Verification of the hagg-lib event phase protocol and delivery mechanism.

This development shallowly embeds the Go sources of the hxevents and
handler packages:
  - the ASCII-safe JSON escape transform (marshalASCIISafe),
  - the header channel (hxevents.Commit),
  - the inline-script channel (RenderInitialEvents, RenderToasts),
  - the per-request event accumulator (handler.Context and commitEvents).

Strings on the wire are modelled as lists of Unicode code points
(List Nat); for all-ASCII output, code points coincide with bytes.
-/

set_option maxRecDepth 4096

/-- Code points of a Lean string; each element is a valid Unicode scalar value. -/
def codePoints (s : String) : List Nat := s.data.map Char.toNat

/-- Lowercase hexadecimal digit character for a nibble, as fmt %x prints it. -/
def hexDigit (n : Nat) : Nat := if n < 10 then 48 + n else 87 + n

/-- Four lowercase hex digit characters of n mod 2^16, as fmt %04x prints a
value not exceeding 0xFFFF. -/
def hex4 (n : Nat) : List Nat :=
  [hexDigit (n / 4096 % 16), hexDigit (n / 256 % 16), hexDigit (n / 16 % 16), hexDigit (n % 16)]

/-- Escape of one rune, as the loop body of marshalASCIISafe emits it:
runes at most 127 pass through, BMP runes become a backslash-u escape, and
supplementary runes become a UTF-16 surrogate pair of escapes. -/
def escapeRune (r : Nat) : List Nat :=
  if r ≤ 127 then [r]
  else if r ≤ 0xFFFF then 92 :: 117 :: hex4 r
  else 92 :: 117 :: hex4 (0xD800 + (r - 0x10000) / 1024) ++
       92 :: 117 :: hex4 (0xDC00 + (r - 0x10000) % 1024)

/-- The rune loop of marshalASCIISafe over a whole string. -/
def escapeNonASCII : List Nat → List Nat
  | [] => []
  | r :: rs => escapeRune r ++ escapeNonASCII rs

/-- Numeric value of one hex digit character, accepting both cases. -/
def hexVal (d : Nat) : Option Nat :=
  if 48 ≤ d ∧ d ≤ 57 then some (d - 48)
  else if 97 ≤ d ∧ d ≤ 102 then some (d - 87)
  else if 65 ≤ d ∧ d ≤ 70 then some (d - 55)
  else none

/-- Numeric value of four hex digit characters. -/
def hex4val (d1 d2 d3 d4 : Nat) : Option Nat :=
  match hexVal d1, hexVal d2, hexVal d3, hexVal d4 with
  | some v1, some v2, some v3, some v4 => some (v1 * 4096 + v2 * 256 + v3 * 16 + v4)
  | _, _, _, _ => none

/-- Continuation of backslash-u decoding once the first four hex digits
have the value v: a high surrogate must be followed by a second escaped
low surrogate and the pair is combined; a lone low surrogate is rejected;
any other value stands for itself. -/
def decodeUCont (v : Nat) (r2 : List Nat) : Option (Nat × List Nat) :=
  if 0xD800 ≤ v ∧ v ≤ 0xDBFF then
    match r2 with
    | b1 :: b2 :: e1 :: e2 :: e3 :: e4 :: r3 =>
      if b1 = 92 ∧ b2 = 117 then
        match hex4val e1 e2 e3 e4 with
        | none => none
        | some w =>
          if 0xDC00 ≤ w ∧ w ≤ 0xDFFF then
            some (0x10000 + (v - 0xD800) * 1024 + (w - 0xDC00), r3)
          else none
      else none
    | _ => none
  else if 0xDC00 ≤ v ∧ v ≤ 0xDFFF then none
  else some (v, r2)

/-- Decode one JSON string character (the client-side decoding of an
escaped string): a plain character stands for itself, a backslash starts a
two-character or backslash-u escape; returns the decoded code point and
the remaining input. The closing quote and control characters are not
tokens. -/
def decodeTok (s : List Nat) : Option (Nat × List Nat) :=
  match s with
  | [] => none
  | c :: rest =>
    if c = 34 then none
    else if c = 92 then
      match rest with
      | [] => none
      | e :: r =>
        if e = 34 then some (34, r)
        else if e = 92 then some (92, r)
        else if e = 47 then some (47, r)
        else if e = 98 then some (8, r)
        else if e = 102 then some (12, r)
        else if e = 110 then some (10, r)
        else if e = 114 then some (13, r)
        else if e = 116 then some (9, r)
        else if e = 117 then
          match r with
          | d1 :: d2 :: d3 :: d4 :: r2 =>
            match hex4val d1 d2 d3 d4 with
            | none => none
            | some v => decodeUCont v r2
          | _ => none
        else none
    else if c < 32 then none
    else some (c, rest)

/-- JSON string body decoder loop: decode characters until the closing
quote, which must end the input; the fuel argument dominates the number of
characters decoded. -/
def decodeLoop : Nat → List Nat → Option (List Nat)
  | 0, _ => none
  | _ + 1, [] => none
  | fuel + 1, c :: rest =>
    if c = 34 then (if rest.isEmpty then some [] else none)
    else
      match decodeTok (c :: rest) with
      | none => none
      | some vr => (decodeLoop fuel vr.2).map (fun l => vr.1 :: l)

/-- JSON string body decoder: each decoding step consumes at least one
character, so the input length is enough fuel. -/
def decodeBody (s : List Nat) : Option (List Nat) := decodeLoop s.length s

/-- Decode one complete JSON string literal back to its code points. -/
def jsonDecodeString (s : List Nat) : Option (List Nat) :=
  match s with
  | [] => none
  | c :: rest => if c = 34 then decodeBody rest else none

/-- JSON string escaping of one character, as encoding/json emits it with
HTML escaping on: quote, backslash, newline, carriage return and tab get
two-character escapes; other control characters and the HTML-sensitive
characters get backslash-u escapes, as do U+2028 and U+2029; everything
else passes through verbatim. -/
def encChar (c : Nat) : List Nat :=
  if c = 34 then [92, 34]
  else if c = 92 then [92, 92]
  else if c = 10 then [92, 110]
  else if c = 13 then [92, 114]
  else if c = 9 then [92, 116]
  else if c < 32 ∨ c = 60 ∨ c = 62 ∨ c = 38 then 92 :: 117 :: hex4 c
  else if c = 0x2028 ∨ c = 0x2029 then 92 :: 117 :: hex4 c
  else [c]

/-- JSON string escaping over a whole string body. -/
def jsonEncBody : List Nat → List Nat
  | [] => []
  | c :: cs => encChar c ++ jsonEncBody cs

/-- JSON string literal for a list of code points, as encoding/json emits it. -/
def jsonEncodeString (s : List Nat) : List Nat := 34 :: jsonEncBody s ++ [34]

/-- A JSON-serializable payload value (the any field of an Event).
The unserializable constructor stands for a Go value that encoding/json
rejects, such as a channel or a function value. -/
inductive Payload where
  | null
  | boolean (b : Bool)
  | number (n : Int)
  | str (s : String)
  | unserializable
  deriving DecidableEq, Repr

/-- An event record: a name and a JSON-serializable payload
(hxevents.Event, which matches handler.Event). -/
structure Event where
  name : String
  payload : Payload
  deriving DecidableEq, Repr

/-- JSON serialization of one payload value, as encoding/json marshals it;
none models a marshal error. -/
def marshalPayload : Payload → Option (List Nat)
  | .null => some (codePoints "null")
  | .boolean true => some (codePoints "true")
  | .boolean false => some (codePoints "false")
  | .number n => some (codePoints (toString n))
  | .str s => some (jsonEncodeString (codePoints s))
  | .unserializable => none

/-- Boolean lexicographic order on code point lists, used to model the
sorted key order in which encoding/json marshals a Go map. -/
def lexLe : List Nat → List Nat → Bool
  | [], _ => true
  | _ :: _, [] => false
  | a :: as, b :: bs => if a < b then true else if b < a then false else lexLe as bs

/-- Insert a key-value pair into a key-sorted association list. -/
def insertKey (p : String × Payload) : List (String × Payload) → List (String × Payload)
  | [] => [p]
  | q :: rest => if lexLe (codePoints p.1) (codePoints q.1) then p :: q :: rest else q :: insertKey p rest

/-- Sort an association list by key (the key order encoding/json uses for maps). -/
def sortKeys : List (String × Payload) → List (String × Payload)
  | [] => []
  | p :: rest => insertKey p (sortKeys rest)

/-- Store a binding in a bucket, replacing any existing binding for the key:
the Go map assignment phases[phase][name] = evt.Payload, so a later event
with the same bare name overwrites an earlier one. -/
def setKey : List (String × Payload) → String → Payload → List (String × Payload)
  | [], k, v => [(k, v)]
  | (k1, v1) :: rest, k, v => if k1 == k then (k, v) :: rest else (k1, v1) :: setKey rest k v

/-- Marshal the entries of a bucket as JSON object members; none as soon as
any payload fails to serialize, as encoding/json fails the whole map then. -/
def marshalEntries : List (String × Payload) → Option (List (List Nat))
  | [] => some []
  | (k, v) :: rest =>
    match marshalPayload v, marshalEntries rest with
    | some j, some js => some ((jsonEncodeString (codePoints k) ++ 58 :: j) :: js)
    | _, _ => none

/-- Comma-join pre-rendered JSON members. -/
def joinComma : List (List Nat) → List Nat
  | [] => []
  | [x] => x
  | x :: xs => x ++ 44 :: joinComma xs

/-- JSON text of a bucket viewed as a Go map from bare name to payload,
with the sorted key order encoding/json uses for maps. -/
def marshalObj (m : List (String × Payload)) : Option (List Nat) :=
  (marshalEntries (sortKeys m)).map (fun ms => 123 :: joinComma ms ++ [125])

/-- marshalASCIISafe: marshal a bucket to JSON, then escape every rune above
the ASCII range as a backslash-u escape (with surrogate pairs beyond the BMP). -/
def marshalASCIISafe (m : List (String × Payload)) : Option (List Nat) :=
  (marshalObj m).map escapeNonASCII

/-- The closed enumeration of the three event phases (hxevents.Phase). -/
inductive Phase where
  | Immediate
  | AfterSwap
  | AfterSettle
  deriving DecidableEq, Repr

/-- The string value of each phase constant, which is also its response
header name: HX-Trigger, HX-Trigger-After-Swap, HX-Trigger-After-Settle. -/
def phaseStr : Phase → String
  | .Immediate => "HX-Trigger"
  | .AfterSwap => "HX-Trigger-After-Swap"
  | .AfterSettle => "HX-Trigger-After-Settle"

/-- strings.HasPrefix on the byte level, modelled on character lists. -/
def strStartsWith (p s : String) : Bool := p.data.isPrefixOf s.data

/-- strings.TrimPrefix. -/
def strTrimPfx (p s : String) : String :=
  if strStartsWith p s then String.mk (s.data.drop p.data.length) else s

/-- Classify an event name by testing the three phase-token prefixes in the
fixed order Immediate, AfterSwap, AfterSettle and stopping at the first
match, as the loop in Commit does; none means the name is untagged. -/
def decodePhase (name : String) : Option (Phase × String) :=
  if strStartsWith (phaseStr .Immediate ++ ":") name then
    some (.Immediate, strTrimPfx (phaseStr .Immediate ++ ":") name)
  else if strStartsWith (phaseStr .AfterSwap ++ ":") name then
    some (.AfterSwap, strTrimPfx (phaseStr .AfterSwap ++ ":") name)
  else if strStartsWith (phaseStr .AfterSettle ++ ":") name then
    some (.AfterSettle, strTrimPfx (phaseStr .AfterSettle ++ ":") name)
  else none

/-- handler.hasPhasePrefix: whether a name carries any of the three phase
tokens, also the filter used by the inline-script channel. -/
def hasPhaseToken (name : String) : Bool :=
  strStartsWith "HX-Trigger:" name ||
  strStartsWith "HX-Trigger-After-Swap:" name ||
  strStartsWith "HX-Trigger-After-Settle:" name

/-- The three per-phase buckets built by Commit. -/
structure PhaseBuckets where
  immediate : List (String × Payload)
  afterSwap : List (String × Payload)
  afterSettle : List (String × Payload)
  deriving DecidableEq, Repr

/-- The bucket of a phase. -/
def PhaseBuckets.get (b : PhaseBuckets) : Phase → List (String × Payload)
  | .Immediate => b.immediate
  | .AfterSwap => b.afterSwap
  | .AfterSettle => b.afterSettle

/-- One step of the grouping loop in Commit: if the event name carries a
phase token, strip it and store the payload under the bare name in that
phase's bucket; otherwise drop the event. -/
def addEvent (b : PhaseBuckets) (e : Event) : PhaseBuckets :=
  match decodePhase e.name with
  | some (.Immediate, n) => { b with immediate := setKey b.immediate n e.payload }
  | some (.AfterSwap, n) => { b with afterSwap := setKey b.afterSwap n e.payload }
  | some (.AfterSettle, n) => { b with afterSettle := setKey b.afterSettle n e.payload }
  | none => b

/-- Partition an event list into the three phase buckets (the grouping
loop of Commit). -/
def groupEvents (events : List Event) : PhaseBuckets :=
  events.foldl addEvent ⟨[], [], []⟩

/-- Request headers, as name-value pairs. -/
abbrev ReqHeaders := List (String × String)

/-- Response header state: header name to value (value as code points). -/
abbrev HeaderMap := List (String × List Nat)

/-- http.Header.Get on the request: the value for a name, empty if absent. -/
def headerGetReq (h : ReqHeaders) (k : String) : String :=
  match h with
  | [] => ""
  | (k1, v) :: rest => if k1 == k then v else headerGetReq rest k

/-- IsHtmxRequest: the HX-Request header equals true. -/
def IsHtmxRequest (h : ReqHeaders) : Bool := headerGetReq h "HX-Request" == "true"

/-- Response header lookup. -/
def getHeader (h : HeaderMap) (k : String) : Option (List Nat) :=
  match h with
  | [] => none
  | (k1, v) :: rest => if k1 == k then some v else getHeader rest k

/-- http.Header.Set on the response: replace any existing value for the
name, never append a duplicate. -/
def setHeader (h : HeaderMap) (k : String) (v : List Nat) : HeaderMap :=
  match h with
  | [] => [(k, v)]
  | (k1, v1) :: rest => if k1 == k then (k, v) :: rest else (k1, v1) :: setHeader rest k v

/-- The header-writing loop of Commit over the phases in a given order:
skip empty buckets, and on the first marshal failure return at once with
an error naming the failing phase, leaving later buckets unwritten. -/
def commitLoop (b : PhaseBuckets) : HeaderMap → List Phase → HeaderMap × Option String
  | h, [] => (h, none)
  | h, p :: ps =>
    if (b.get p).isEmpty then commitLoop b h ps
    else
      match marshalASCIISafe (b.get p) with
      | none => (h, some ("marshal events for " ++ phaseStr p))
      | some v => commitLoop b (setHeader h (phaseStr p) v) ps

/-- The order in which the phases are processed. The Go source ranges over
a three-key map, whose iteration order is arbitrary; this fixed order is
one legal execution. -/
def stdPhaseOrder : List Phase := [.Immediate, .AfterSwap, .AfterSettle]

/-- hxevents.Commit: write accumulated events to the phase trigger response
headers. A no-op returning success unless the request is an HTMX request. -/
def Commit (resH : HeaderMap) (req : ReqHeaders) (events : List Event) : HeaderMap × Option String :=
  if !IsHtmxRequest req then (resH, none)
  else commitLoop (groupEvents events) resH stdPhaseOrder

/-- JSON record for one event in the initial-events array, with the struct
field order name then payload; none if the payload fails to serialize. -/
def marshalEventRecord (e : Event) : Option (List Nat) :=
  (marshalPayload e.payload).map (fun j =>
    123 :: codePoints "\"name\":" ++ jsonEncodeString (codePoints e.name) ++
      codePoints ",\"payload\":" ++ j ++ [125])

/-- JSON records of all events; none as soon as any event fails, as
encoding/json fails the whole slice then. -/
def marshalRecords : List Event → Option (List (List Nat))
  | [] => some []
  | e :: rest =>
    match marshalEventRecord e, marshalRecords rest with
    | some r, some rs => some (r :: rs)
    | _, _ => none

/-- JSON array of the filtered event list, as json.Marshal renders a slice. -/
def marshalEventArray (events : List Event) : Option (List Nat) :=
  (marshalRecords events).map (fun rs => 91 :: joinComma rs ++ [93])

/-- RenderInitialEvents: for a full-page load, embed the untagged events as
a JSON array in a data script block; empty output for an HTMX request, for
an empty filtered list, or when the array fails to marshal. -/
def RenderInitialEvents (req : ReqHeaders) (events : List Event) : List Nat :=
  if IsHtmxRequest req then []
  else
    let initialEvents := events.filter (fun e => ! hasPhaseToken e.name)
    if initialEvents.isEmpty then []
    else
      match marshalEventArray initialEvents with
      | none => []
      | some j =>
        codePoints "<script type=\"application/json\" id=\"initial-events\">" ++ j ++
          codePoints "</script>"

/-- Markup of one self-destructing toast element for a payload rendered as
JSON: a div wrapping a display-invocation script and a self-removal script. -/
def toastMarkup (j : List Nat) : List Nat :=
  codePoints "<div><script>showToast(" ++ j ++
    codePoints ")</script><script>me().remove()</script></div>"

/-- The loop body of RenderToasts: skip phase-tagged events, events not
named toast, and events whose payload fails to serialize. -/
def toastFragment (e : Event) : Option (List Nat) :=
  if hasPhaseToken e.name then none
  else if e.name != "toast" then none
  else (marshalPayload e.payload).map toastMarkup

/-- RenderToasts: for a full-page load, render each untagged toast event as
a self-destructing element, in event order; empty output for an HTMX
request or when no toast survives the filters. -/
def RenderToasts (req : ReqHeaders) (events : List Event) : List Nat :=
  if IsHtmxRequest req then []
  else
    let toasts := events.filterMap toastFragment
    if toasts.isEmpty then [] else toasts.flatten

/-- handler.Context: the per-request accumulator state that matters to the
event protocol, namely the ordered event sequence and the commit guard. -/
structure Context where
  events : List Event
  eventsCommitted : Bool
  deriving DecidableEq, Repr

/-- Context.Event: append one event to the accumulator. -/
def Context.addEvent (c : Context) (name : String) (payload : Payload) : Context :=
  { c with events := c.events ++ [⟨name, payload⟩] }

/-- Context.Events: the accumulated events. -/
def Context.Events (c : Context) : List Event := c.events

/-- The conversion loop of commitEvents: prefix the default Immediate phase
token onto each name that carries no phase token, on a fresh list. -/
def convertEvents (events : List Event) : List Event :=
  events.map (fun e =>
    if hasPhaseToken e.name then e else ⟨"HX-Trigger:" ++ e.name, e.payload⟩)

/-- commitEvents: commit the accumulated events once; a second call is a
no-op thanks to the eventsCommitted guard. The Commit error is discarded,
as in the source. -/
def commitEvents (c : Context) (resH : HeaderMap) (req : ReqHeaders) : Context × HeaderMap :=
  if c.eventsCommitted then (c, resH)
  else
    ({ c with eventsCommitted := true },
     (Commit resH req (convertEvents c.events)).1)

/-- Lookup of a bare name in a phase bucket. -/
def lookupKey (m : List (String × Payload)) (n : String) : Option Payload :=
  match m with
  | [] => none
  | (k, v) :: rest => if k == n then some v else lookupKey rest n

/-- The payload of one event, when its name decodes to the given phase and
bare name. A specification-side classifier. -/
def matchEvent (p : Phase) (n : String) (e : Event) : Option Payload :=
  match decodePhase e.name with
  | some (p2, n2) => if p2 = p ∧ n2 = n then some e.payload else none
  | none => none

/-- The payload of the last event in the sequence that decodes to the given
phase and bare name. A specification-side description of last write wins. -/
def lastMatch (p : Phase) (n : String) : List Event → Option Payload
  | [] => none
  | e :: rest =>
    match lastMatch p n rest with
    | some v => some v
    | none => matchEvent p n e

/-- One list occurs contiguously inside another. -/
def containsSeg (pat l : List Nat) : Prop := ∃ s t, l = s ++ pat ++ t

/-- A valid Unicode scalar value: below the surrogate range, or between it
and the end of the code space. Every rune of a Go string and every Char of
a Lean string satisfies this. -/
def validScalar (c : Nat) : Prop := c < 0xD800 ∨ (0xDFFF < c ∧ c < 0x110000)

-- sanity checks: the codec roundtrip on concrete strings, the collision
-- scenario from the spec, and the default phase for untagged events
example : escapeNonASCII (codePoints "café") = codePoints "caf" ++ [92, 117, 48, 48, 101, 57] := by decide
example : jsonDecodeString (escapeNonASCII (jsonEncodeString (codePoints "café"))) = some (codePoints "café") := by decide
example : jsonDecodeString (escapeNonASCII (jsonEncodeString (codePoints "🎉"))) = some (codePoints "🎉") := by decide
example : marshalObj [("x", Payload.number 2)] = some [123, 34, 120, 34, 58, 50, 125] := by decide
example :
    Commit [] [("HX-Request", "true")] [⟨"HX-Trigger:x", .number 1⟩, ⟨"HX-Trigger:x", .number 2⟩] =
      ([("HX-Trigger", [123, 34, 120, 34, 58, 50, 125])], none) := by decide
example :
    Commit [] [] [⟨"HX-Trigger:x", .number 1⟩] = ([], none) := by decide
example :
    (commitEvents ⟨[⟨"hello", .null⟩], false⟩ [] [("HX-Request", "true")]).2 =
      [("HX-Trigger", 123 :: codePoints "\"hello\":null" ++ [125])] := by decide
example :
    RenderToasts [] [⟨"toast", .str "hi"⟩] =
      codePoints "<div><script>showToast(\"hi\")</script><script>me().remove()</script></div>" := by
  decide

-- basic lemmas about buckets and header maps

theorem lookupKey_setKey_self (m : List (String × Payload)) (k : String) (v : Payload) :
    lookupKey (setKey m k v) k = some v := by
  induction m with
  | nil => simp [setKey, lookupKey]
  | cons p rest ih =>
    obtain ⟨k1, v1⟩ := p
    by_cases h : k1 == k
    · simp [setKey, h, lookupKey]
    · simp only [setKey, h, Bool.false_eq_true, if_false, lookupKey]
      exact ih

theorem lookupKey_setKey_ne (m : List (String × Payload)) (k n : String) (v : Payload)
    (h : k ≠ n) : lookupKey (setKey m k v) n = lookupKey m n := by
  induction m with
  | nil => simp [setKey, lookupKey, h]
  | cons p rest ih =>
    obtain ⟨k1, v1⟩ := p
    by_cases h1 : k1 == k
    · have hk : k1 = k := by simpa using h1
      subst hk
      simp [setKey, lookupKey, h]
    · simp only [setKey, h1, Bool.false_eq_true, if_false, lookupKey]
      by_cases h2 : k1 == n
      · simp [h2]
      · simp [h2, ih]

theorem get_addEvent_match (b : PhaseBuckets) (e : Event) (p : Phase) (n : String)
    (h : decodePhase e.name = some (p, n)) :
    (addEvent b e).get p = setKey (b.get p) n e.payload := by
  cases p <;> simp [addEvent, h, PhaseBuckets.get]

theorem get_addEvent_other (b : PhaseBuckets) (e : Event) (p p2 : Phase) (n2 : String)
    (h : decodePhase e.name = some (p2, n2)) (hp : p2 ≠ p) :
    (addEvent b e).get p = b.get p := by
  cases p2 <;> cases p <;> simp_all [addEvent, PhaseBuckets.get]

theorem addEvent_untagged (b : PhaseBuckets) (e : Event)
    (h : decodePhase e.name = none) : addEvent b e = b := by
  simp [addEvent, h]

theorem lookup_group_general (es : List Event) :
    ∀ (b : PhaseBuckets) (p : Phase) (n : String),
      lookupKey ((List.foldl addEvent b es).get p) n =
        (match lastMatch p n es with
         | some v => some v
         | none => lookupKey (b.get p) n) := by
  induction es with
  | nil => intro b p n; simp [lastMatch]
  | cons e rest ih =>
    intro b p n
    rw [List.foldl_cons, ih]
    cases hrest : lastMatch p n rest with
    | some v => simp [lastMatch, hrest]
    | none =>
      simp only [lastMatch, hrest]
      cases hdec : decodePhase e.name with
      | none => simp [matchEvent, hdec, addEvent_untagged b e hdec]
      | some pn =>
        obtain ⟨p2, n2⟩ := pn
        by_cases hp : p2 = p
        · subst hp
          rw [get_addEvent_match b e p2 n2 hdec]
          by_cases hn : n2 = n
          · subst hn
            simp [matchEvent, hdec, lookupKey_setKey_self]
          · simp [matchEvent, hdec, hn, lookupKey_setKey_ne _ _ _ _ hn]
        · rw [get_addEvent_other b e p p2 n2 hdec hp]
          simp [matchEvent, hdec, hp]

theorem lookup_groupEvents (es : List Event) (p : Phase) (n : String) :
    lookupKey ((groupEvents es).get p) n = lastMatch p n es := by
  rw [groupEvents, lookup_group_general]
  cases h : lastMatch p n es
  · cases p <;> simp [PhaseBuckets.get, lookupKey]
  · simp

theorem foldl_addEvent_untagged (es : List Event)
    (h : ∀ e ∈ es, decodePhase e.name = none) :
    ∀ b : PhaseBuckets, List.foldl addEvent b es = b := by
  induction es with
  | nil => intro b; rfl
  | cons e rest ih =>
    intro b
    rw [List.foldl_cons, addEvent_untagged b e (h e (by simp))]
    exact ih (fun f hf => h f (by simp [hf])) b

/-- C2: given a request flagged as incremental, RenderInitialEvents and
RenderToasts both return empty output regardless of event content; given a
request not so flagged, Commit leaves the response headers untouched and
returns success regardless of event content. -/
theorem incremental_exclusivity (req1 req2 : ReqHeaders) (resH : HeaderMap)
    (es : List Event) (h1 : IsHtmxRequest req1 = true) (h2 : IsHtmxRequest req2 = false) :
    RenderInitialEvents req1 es = [] ∧ RenderToasts req1 es = [] ∧
      Commit resH req2 es = (resH, none) := by
  refine ⟨?_, ?_, ?_⟩
  · simp [RenderInitialEvents, h1]
  · simp [RenderToasts, h1]
  · simp [Commit, h2]

/-- Witness for C2 at a concrete incremental request, a concrete full-page
request and a concrete event list. -/
theorem incremental_exclusivity_witness :
    RenderInitialEvents [("HX-Request", "true")] [⟨"toast", .null⟩] = [] ∧
      RenderToasts [("HX-Request", "true")] [⟨"toast", .null⟩] = [] ∧
      Commit [] [] [⟨"toast", .null⟩] = ([], none) :=
  incremental_exclusivity [("HX-Request", "true")] [] [] [⟨"toast", .null⟩]
    (by decide) (by decide)

/-- C3: within a phase bucket, later events with the same phase and bare
name overwrite earlier ones, so the committed bucket maps each bare name to
the payload of the last matching event; concretely, the two colliding
Immediate events named x with payloads 1 and 2 produce the Immediate header
value containing exactly x mapped to 2. -/
theorem last_write_wins :
    (∀ (es : List Event) (p : Phase) (n : String),
        lookupKey ((groupEvents es).get p) n = lastMatch p n es) ∧
      Commit [] [("HX-Request", "true")]
          [⟨"HX-Trigger:x", .number 1⟩, ⟨"HX-Trigger:x", .number 2⟩] =
        ([("HX-Trigger", [123, 34, 120, 34, 58, 50, 125])], none) :=
  ⟨lookup_groupEvents, by decide⟩

/-- C4: an event whose name carries no phase token is silently dropped by
the header channel, also in the middle of an arbitrary event list: the
buckets and the headers Commit writes are exactly those of the same list
without that event, so it never appears under any phase header; and an
input consisting only of such events produces empty buckets, no headers
and success. -/
theorem untagged_events_dropped (resH : HeaderMap) (req : ReqHeaders) :
    (∀ (es1 es2 : List Event) (e : Event), decodePhase e.name = none →
      groupEvents (es1 ++ e :: es2) = groupEvents (es1 ++ es2) ∧
      Commit resH req (es1 ++ e :: es2) = Commit resH req (es1 ++ es2)) ∧
    (∀ es : List Event, (∀ e ∈ es, decodePhase e.name = none) →
      groupEvents es = ⟨[], [], []⟩ ∧ Commit resH req es = (resH, none)) := by
  constructor
  · intro es1 es2 e he
    have hg : groupEvents (es1 ++ e :: es2) = groupEvents (es1 ++ es2) := by
      unfold groupEvents
      rw [List.foldl_append, List.foldl_append, List.foldl_cons, addEvent_untagged _ e he]
    refine ⟨hg, ?_⟩
    unfold Commit
    rw [hg]
  · intro es h
    have hg : groupEvents es = ⟨[], [], []⟩ := foldl_addEvent_untagged es h ⟨[], [], []⟩
    refine ⟨hg, ?_⟩
    by_cases hh : IsHtmxRequest req
    · simp [Commit, hh, hg, commitLoop, stdPhaseOrder, PhaseBuckets.get]
    · simp [Commit, hh]

/-- Witness for C4: a concrete untagged event committed between tagged
events leaves buckets and headers unchanged, and a concrete list of only
untagged events produces no headers. -/
theorem untagged_events_dropped_witness :
    (groupEvents [⟨"HX-Trigger:x", .number 1⟩, ⟨"plain-event", .null⟩,
        ⟨"HX-Trigger-After-Swap:y", .number 2⟩] =
      groupEvents [⟨"HX-Trigger:x", .number 1⟩,
        ⟨"HX-Trigger-After-Swap:y", .number 2⟩] ∧
      Commit [] [("HX-Request", "true")] [⟨"HX-Trigger:x", .number 1⟩,
          ⟨"plain-event", .null⟩, ⟨"HX-Trigger-After-Swap:y", .number 2⟩] =
        Commit [] [("HX-Request", "true")] [⟨"HX-Trigger:x", .number 1⟩,
          ⟨"HX-Trigger-After-Swap:y", .number 2⟩]) ∧
      groupEvents [⟨"plain-event", .null⟩] = ⟨[], [], []⟩ ∧
      Commit [] [("HX-Request", "true")] [⟨"plain-event", .null⟩] = ([], none) :=
  ⟨(untagged_events_dropped [] [("HX-Request", "true")]).1
      [⟨"HX-Trigger:x", .number 1⟩] [⟨"HX-Trigger-After-Swap:y", .number 2⟩]
      ⟨"plain-event", .null⟩ (by decide),
    (untagged_events_dropped [] [("HX-Request", "true")]).2
      [⟨"plain-event", .null⟩] (by decide)⟩

/-- C6: the commit step is idempotent: a second call on the context and
header state produced by a first call returns them unchanged, because the
eventsCommitted guard makes it a no-op and headers are set, not appended. -/
theorem commit_idempotent (c : Context) (resH : HeaderMap) (req : ReqHeaders) :
    commitEvents (commitEvents c resH req).1 (commitEvents c resH req).2 req =
      commitEvents c resH req := by
  by_cases h : c.eventsCommitted
  · simp [commitEvents, h]
  · simp [commitEvents, h]

/-- C10: committing does not mutate the stored event sequence: the phase
prefixing happens on a converted copy only, so Events returns the same
list after commitEvents as before, and the inline-script channel invoked
afterwards produces the same output as before. -/
theorem commit_preserves_events (c : Context) (resH : HeaderMap) (req req2 : ReqHeaders) :
    ((commitEvents c resH req).1).Events = c.Events ∧
      ((commitEvents c resH req).1).events = c.events ∧
      RenderInitialEvents req2 (((commitEvents c resH req).1).events) =
        RenderInitialEvents req2 c.events := by
  by_cases h : c.eventsCommitted <;> simp [commitEvents, h, Context.Events]





-- lemmas about the ASCII-safe escape transform and its decoding

theorem validScalar_char (ch : Char) : validScalar ch.toNat := by
  have h := ch.valid
  unfold UInt32.isValidChar Nat.isValidChar at h
  unfold validScalar Char.toNat
  omega

theorem escapeRune_ascii (a : Nat) (h : a ≤ 127) : escapeRune a = [a] := by
  simp [escapeRune, h]

theorem escapeNonASCII_append (l1 l2 : List Nat) :
    escapeNonASCII (l1 ++ l2) = escapeNonASCII l1 ++ escapeNonASCII l2 := by
  induction l1 with
  | nil => simp [escapeNonASCII]
  | cons a as ih => simp [escapeNonASCII, ih]

theorem escapeNonASCII_ascii (l : List Nat) (h : ∀ a ∈ l, a ≤ 127) :
    escapeNonASCII l = l := by
  induction l with
  | nil => rfl
  | cons a as ih =>
    rw [escapeNonASCII, escapeRune_ascii a (h a (by simp)), ih (fun b hb => h b (by simp [hb]))]
    rfl

theorem hexDigit_le (n : Nat) (h : n < 16) : hexDigit n ≤ 102 := by
  unfold hexDigit; split <;> omega

theorem hexVal_hexDigit (n : Nat) (h : n < 16) : hexVal (hexDigit n) = some n := by
  unfold hexDigit hexVal
  by_cases h10 : n < 10
  · rw [if_pos h10, if_pos (by omega)]
    congr 1
    omega
  · rw [if_neg h10, if_neg (by omega), if_pos (by omega)]
    congr 1
    omega

theorem hex4val_hex4 (n : Nat) (h : n < 65536) :
    hex4val (hexDigit (n / 4096 % 16)) (hexDigit (n / 256 % 16))
      (hexDigit (n / 16 % 16)) (hexDigit (n % 16)) = some n := by
  unfold hex4val
  rw [hexVal_hexDigit _ (by omega), hexVal_hexDigit _ (by omega),
      hexVal_hexDigit _ (by omega), hexVal_hexDigit _ (by omega)]
  show some (n / 4096 % 16 * 4096 + n / 256 % 16 * 256 + n / 16 % 16 * 16 + n % 16) = some n
  exact congrArg some (by omega)

theorem hex4_mem_le (n : Nat) : ∀ a ∈ hex4 n, a ≤ 102 := by
  intro a ha
  simp only [hex4, List.mem_cons, List.mem_singleton, List.not_mem_nil, or_false] at ha
  rcases ha with h | h | h | h <;> subst h <;> exact hexDigit_le _ (by omega)

theorem escapeRune_mem_lt (r : Nat) : ∀ b ∈ escapeRune r, b < 128 := by
  intro b hb
  unfold escapeRune at hb
  by_cases h1 : r ≤ 127
  · rw [if_pos h1] at hb
    simp only [List.mem_singleton] at hb
    omega
  · rw [if_neg h1] at hb
    by_cases h2 : r ≤ 0xFFFF
    · rw [if_pos h2] at hb
      simp only [List.mem_cons] at hb
      rcases hb with rfl | rfl | h
      · omega
      · omega
      · have := hex4_mem_le r b h
        omega
    · rw [if_neg h2] at hb
      simp only [List.mem_append, List.mem_cons] at hb
      rcases hb with (rfl | rfl | h) | (rfl | rfl | h)
      · omega
      · omega
      · have := hex4_mem_le (0xD800 + (r - 0x10000) / 1024) b h
        omega
      · omega
      · omega
      · have := hex4_mem_le (0xDC00 + (r - 0x10000) % 1024) b h
        omega

theorem escapeNonASCII_mem_lt (l : List Nat) : ∀ b ∈ escapeNonASCII l, b < 128 := by
  induction l with
  | nil => intro b hb; simp [escapeNonASCII] at hb
  | cons a as ih =>
    intro b hb
    rw [escapeNonASCII] at hb
    rcases List.mem_append.mp hb with h | h
    · exact escapeRune_mem_lt a b h
    · exact ih b h

-- decoding the escape sequences the encoder and the transform emit

theorem decodeUCont_plain (v : Nat) (hs : v < 55296 ∨ 57343 < v) (r2 : List Nat) :
    decodeUCont v r2 = some (v, r2) := by
  unfold decodeUCont
  rw [if_neg (by omega), if_neg (by omega)]

theorem decodeUCont_pair (v e1 e2 e3 e4 : Nat) (r3 : List Nat) (hv : 55296 ≤ v ∧ v ≤ 56319) :
    decodeUCont v (92 :: 117 :: e1 :: e2 :: e3 :: e4 :: r3) =
      (match hex4val e1 e2 e3 e4 with
       | none => none
       | some w =>
         if 56320 ≤ w ∧ w ≤ 57343 then
           some (65536 + (v - 55296) * 1024 + (w - 56320), r3)
         else none) := by
  unfold decodeUCont
  rw [if_pos hv]
  show (if (92 : Nat) = 92 ∧ (117 : Nat) = 117 then _ else none) = _
  rw [if_pos (by omega)]

theorem decodeTok_u4 (d1 d2 d3 d4 : Nat) (r2 : List Nat) :
    decodeTok (92 :: 117 :: d1 :: d2 :: d3 :: d4 :: r2) =
      (match hex4val d1 d2 d3 d4 with
       | none => none
       | some v => decodeUCont v r2) := rfl

theorem decodeTok_u_escape (c : Nat) (hlt : c < 65536) (hs : c < 55296 ∨ 57343 < c)
    (rest : List Nat) :
    decodeTok (92 :: 117 :: (hex4 c ++ rest)) = some (c, rest) := by
  simp only [hex4, List.cons_append, List.nil_append]
  rw [decodeTok_u4, hex4val_hex4 c hlt]
  show decodeUCont c rest = some (c, rest)
  exact decodeUCont_plain c hs rest

theorem decodeTok_surrogate (c : Nat) (h1 : 65536 ≤ c) (h2 : c < 1114112) (rest : List Nat) :
    decodeTok (92 :: 117 :: (hex4 (55296 + (c - 65536) / 1024) ++
      (92 :: 117 :: (hex4 (56320 + (c - 65536) % 1024) ++ rest)))) = some (c, rest) := by
  simp only [hex4, List.cons_append, List.nil_append]
  rw [decodeTok_u4, hex4val_hex4 _ (by omega)]
  show decodeUCont (55296 + (c - 65536) / 1024) _ = some (c, rest)
  rw [decodeUCont_pair _ _ _ _ _ _ (by omega), hex4val_hex4 _ (by omega)]
  show (if 56320 ≤ 56320 + (c - 65536) % 1024 ∧ 56320 + (c - 65536) % 1024 ≤ 57343 then
      some (65536 + (55296 + (c - 65536) / 1024 - 55296) * 1024 +
        (56320 + (c - 65536) % 1024 - 56320), rest)
    else none) = some (c, rest)
  rw [if_pos (by omega)]
  exact congrArg (fun x => some (x, rest)) (by omega)

theorem decodeLoop_step (f : Nat) (c0 : Nat) (xs : List Nat) (v : Nat) (r2 : List Nat)
    (h34 : c0 ≠ 34) (htok : decodeTok (c0 :: xs) = some (v, r2)) :
    decodeLoop (f + 1) (c0 :: xs) = (decodeLoop f r2).map (fun l => v :: l) := by
  simp only [decodeLoop]
  rw [if_neg h34, htok]

theorem escapeNonASCII_u_form (c : Nat) :
    escapeNonASCII (92 :: 117 :: hex4 c) = 92 :: 117 :: hex4 c := by
  refine escapeNonASCII_ascii _ ?_
  intro a ha
  simp only [List.mem_cons] at ha
  rcases ha with rfl | rfl | h
  · omega
  · omega
  · have := hex4_mem_le c a h
    omega

theorem decodeStep (c : Nat) (hc : validScalar c) (rest : List Nat) (f : Nat) :
    decodeLoop (f + 1) (escapeNonASCII (encChar c) ++ rest) =
      (decodeLoop f rest).map (fun l => c :: l) := by
  by_cases h34 : c = 34
  · subst h34
    exact decodeLoop_step f 92 (34 :: rest) 34 rest (by omega) rfl
  by_cases h92 : c = 92
  · subst h92
    exact decodeLoop_step f 92 (92 :: rest) 92 rest (by omega) rfl
  by_cases h10 : c = 10
  · subst h10
    exact decodeLoop_step f 92 (110 :: rest) 10 rest (by omega) rfl
  by_cases h13 : c = 13
  · subst h13
    exact decodeLoop_step f 92 (114 :: rest) 13 rest (by omega) rfl
  by_cases h9 : c = 9
  · subst h9
    exact decodeLoop_step f 92 (116 :: rest) 9 rest (by omega) rfl
  by_cases h6 : c < 32 ∨ c = 60 ∨ c = 62 ∨ c = 38
  · rw [encChar, if_neg h34, if_neg h92, if_neg h10, if_neg h13, if_neg h9, if_pos h6,
      escapeNonASCII_u_form]
    simp only [List.cons_append]
    exact decodeLoop_step f 92 (117 :: (hex4 c ++ rest)) c rest (by omega)
      (decodeTok_u_escape c (by omega) (by omega) rest)
  by_cases h7 : c = 8232 ∨ c = 8233
  · rw [encChar, if_neg h34, if_neg h92, if_neg h10, if_neg h13, if_neg h9, if_neg h6,
      if_pos h7, escapeNonASCII_u_form]
    simp only [List.cons_append]
    exact decodeLoop_step f 92 (117 :: (hex4 c ++ rest)) c rest (by omega)
      (decodeTok_u_escape c (by omega) (by omega) rest)
  rw [encChar, if_neg h34, if_neg h92, if_neg h10, if_neg h13, if_neg h9, if_neg h6, if_neg h7]
  rw [show escapeNonASCII [c] = escapeRune c ++ [] from rfl, List.append_nil]
  by_cases hle : c ≤ 127
  · rw [escapeRune_ascii c hle]
    refine decodeLoop_step f c rest c rest h34 ?_
    simp only [decodeTok]
    rw [if_neg h34, if_neg h92, if_neg (show ¬ c < 32 by omega)]
  by_cases hbmp : c ≤ 65535
  · rw [escapeRune, if_neg hle, if_pos hbmp]
    simp only [List.cons_append]
    unfold validScalar at hc
    exact decodeLoop_step f 92 (117 :: (hex4 c ++ rest)) c rest (by omega)
      (decodeTok_u_escape c (by omega) (by omega) rest)
  · rw [escapeRune, if_neg hle, if_neg hbmp]
    simp only [List.cons_append, List.append_assoc]
    unfold validScalar at hc
    exact decodeLoop_step f 92
      (117 :: (hex4 (55296 + (c - 65536) / 1024) ++
        (92 :: 117 :: (hex4 (56320 + (c - 65536) % 1024) ++ rest)))) c rest (by omega)
      (decodeTok_surrogate c (by omega) (by omega) rest)

theorem escapeRune_length_pos (r : Nat) : 0 < (escapeRune r).length := by
  unfold escapeRune
  split
  · simp
  · split
    · simp
    · simp

theorem encChar_ne_nil (c : Nat) : encChar c ≠ [] := by
  unfold encChar
  repeat' split
  all_goals simp

theorem escapeNonASCII_encChar_length (c : Nat) : 1 ≤ (escapeNonASCII (encChar c)).length := by
  cases hE : encChar c with
  | nil => exact absurd hE (encChar_ne_nil c)
  | cons d ds =>
    rw [escapeNonASCII, List.length_append]
    have := escapeRune_length_pos d
    omega

theorem encBody_length (l : List Nat) : l.length ≤ (escapeNonASCII (jsonEncBody l)).length := by
  induction l with
  | nil => simp [jsonEncBody, escapeNonASCII]
  | cons c cs ih =>
    rw [jsonEncBody, escapeNonASCII_append, List.length_append, List.length_cons]
    have := escapeNonASCII_encChar_length c
    omega

theorem decodeLoop_encBody (l : List Nat) : ∀ (f : Nat), (∀ c ∈ l, validScalar c) →
    l.length + 1 ≤ f → decodeLoop f (escapeNonASCII (jsonEncBody l) ++ [34]) = some l := by
  induction l with
  | nil =>
    intro f hv hf
    obtain ⟨f2, rfl⟩ : ∃ f2, f = f2 + 1 := ⟨f - 1, by omega⟩
    simp [jsonEncBody, escapeNonASCII, decodeLoop]
  | cons c cs ih =>
    intro f hv hf
    obtain ⟨f2, rfl⟩ : ∃ f2, f = f2 + 1 := ⟨f - 1, by omega⟩
    rw [jsonEncBody, escapeNonASCII_append, List.append_assoc]
    rw [decodeStep c (hv c (by simp)) _ f2]
    rw [ih f2 (fun x hx => hv x (by simp [hx])) (by simp only [List.length_cons] at hf; omega)]
    rfl

theorem body_roundtrip (l : List Nat) (hv : ∀ c ∈ l, validScalar c) :
    decodeBody (escapeNonASCII (jsonEncBody l) ++ [34]) = some l := by
  rw [decodeBody]
  refine decodeLoop_encBody l _ hv ?_
  rw [List.length_append]
  have := encBody_length l
  simp only [List.length_singleton]
  omega

theorem string_roundtrip (l : List Nat) (hv : ∀ c ∈ l, validScalar c) :
    jsonDecodeString (escapeNonASCII (jsonEncodeString l)) = some l := by
  rw [jsonEncodeString]
  simp only [List.cons_append]
  rw [show escapeNonASCII (34 :: (jsonEncBody l ++ [34])) =
    34 :: escapeNonASCII (jsonEncBody l ++ [34]) from by rw [escapeNonASCII]; rfl]
  rw [jsonDecodeString]
  rw [if_pos rfl, escapeNonASCII_append]
  rw [show escapeNonASCII [34] = [34] from rfl]
  exact body_roundtrip l hv

theorem codePoints_valid (s : String) : ∀ c ∈ codePoints s, validScalar c := by
  intro c hcm
  simp only [codePoints, List.mem_map] at hcm
  obtain ⟨ch, _, rfl⟩ := hcm
  exact validScalar_char ch

theorem mem_setHeader (h : HeaderMap) (k : String) (v : List Nat) :
    ∀ kv ∈ setHeader h k v, kv ∈ h ∨ kv = (k, v) := by
  induction h with
  | nil =>
    intro kv hkv
    simp only [setHeader, List.mem_singleton] at hkv
    exact Or.inr hkv
  | cons p rest ih =>
    obtain ⟨k1, v1⟩ := p
    intro kv hkv
    by_cases he : k1 == k
    · simp only [setHeader, he, if_true] at hkv
      rcases List.mem_cons.mp hkv with rfl | hm
      · exact Or.inr rfl
      · exact Or.inl (List.mem_cons_of_mem _ hm)
    · simp only [setHeader, he, Bool.false_eq_true, if_false] at hkv
      rcases List.mem_cons.mp hkv with rfl | hm
      · exact Or.inl (List.mem_cons_self _ _)
      · rcases ih kv hm with hin | rfl
        · exact Or.inl (List.mem_cons_of_mem _ hin)
        · exact Or.inr rfl

theorem commitLoop_ascii (ps : List Phase) : ∀ (b : PhaseBuckets) (h : HeaderMap),
    (∀ kv ∈ h, ∀ x ∈ kv.2, x < 128) →
    ∀ kv ∈ (commitLoop b h ps).1, ∀ x ∈ kv.2, x < 128 := by
  induction ps with
  | nil =>
    intro b h hh kv hkv
    exact hh kv hkv
  | cons p ps ih =>
    intro b h hh kv hkv
    rw [commitLoop] at hkv
    by_cases he : (b.get p).isEmpty
    · rw [if_pos he] at hkv
      exact ih b h hh kv hkv
    · rw [if_neg he] at hkv
      cases hm : marshalObj (b.get p) with
      | none =>
        rw [show marshalASCIISafe (b.get p) = none from by
          simp [marshalASCIISafe, hm]] at hkv
        exact hh kv hkv
      | some j =>
        rw [show marshalASCIISafe (b.get p) = some (escapeNonASCII j) from by
          simp [marshalASCIISafe, hm]] at hkv
        refine ih b _ ?_ kv hkv
        intro kv2 hkv2 x hx
        rcases mem_setHeader h (phaseStr p) (escapeNonASCII j) kv2 hkv2 with hmem | rfl
        · exact hh kv2 hmem x hx
        · exact escapeNonASCII_mem_lt j x hx

/-- C1: every byte of each phase-header value written by Commit on an
incremental exchange is strictly below 0x80, because each non-empty
bucket's JSON is passed through the escape transform; and decoding the
escaped JSON string of any payload string reproduces the original string
exactly, including code points that need surrogate pairs. -/
theorem ascii_safe_headers :
    (∀ (req : ReqHeaders) (es : List Event), ∀ kv ∈ (Commit [] req es).1, ∀ x ∈ kv.2, x < 128) ∧
      (∀ s : String,
        jsonDecodeString (escapeNonASCII (jsonEncodeString (codePoints s))) =
          some (codePoints s)) := by
  constructor
  · intro req es kv hkv x hx
    unfold Commit at hkv
    by_cases hh : IsHtmxRequest req
    · rw [hh] at hkv
      simp only [Bool.not_true, Bool.false_eq_true, if_false] at hkv
      exact commitLoop_ascii stdPhaseOrder (groupEvents es) []
        (by intro kv2 hkv2; simp at hkv2) kv hkv x hx
    · rw [show IsHtmxRequest req = false from by simpa using hh] at hkv
      simp only [Bool.not_false, if_true] at hkv
      simp at hkv
  · intro s
    exact string_roundtrip (codePoints s) (codePoints_valid s)

/-- Witness for C1 at a concrete incremental request, event list, header
pair and byte, and at a concrete non-ASCII string. -/
theorem ascii_safe_headers_witness :
    (123 : Nat) < 128 ∧
      jsonDecodeString (escapeNonASCII (jsonEncodeString (codePoints "café🎉"))) =
        some (codePoints "café🎉") :=
  ⟨ascii_safe_headers.1 [("HX-Request", "true")] [⟨"HX-Trigger:x", .null⟩]
      ("HX-Trigger", 123 :: codePoints "\"x\":null" ++ [125]) (by decide) 123 (by decide),
    ascii_safe_headers.2 "café🎉"⟩

-- lemmas about the default phase and the committed Immediate header

theorem isPrefixOf_self_append (p r : List Char) : p.isPrefixOf (p ++ r) = true := by
  induction p with
  | nil => simp [List.isPrefixOf]
  | cons a as ih => simp [List.isPrefixOf, ih]

theorem strStartsWith_self_append (p n : String) : strStartsWith p (p ++ n) = true := by
  unfold strStartsWith
  rw [String.data_append]
  exact isPrefixOf_self_append _ _

theorem strTrimPfx_self_append (p n : String) : strTrimPfx p (p ++ n) = n := by
  unfold strTrimPfx
  rw [if_pos (strStartsWith_self_append p n), String.data_append, List.drop_left]

theorem decodePhase_default (n : String) :
    decodePhase ("HX-Trigger:" ++ n) = some (.Immediate, n) := by
  unfold decodePhase
  rw [show phaseStr Phase.Immediate ++ ":" = "HX-Trigger:" from by decide]
  rw [if_pos (strStartsWith_self_append "HX-Trigger:" n)]
  rw [strTrimPfx_self_append]

theorem lastMatch_of_mem (p : Phase) (n : String) (es : List Event)
    (h : ∃ e ∈ es, matchEvent p n e ≠ none) : lastMatch p n es ≠ none := by
  induction es with
  | nil => simp at h
  | cons f rest ih =>
    rw [lastMatch]
    cases hrest : lastMatch p n rest with
    | some v => simp
    | none =>
      obtain ⟨e, he, hm⟩ := h
      rcases List.mem_cons.mp he with rfl | hin
      · simpa using hm
      · exact absurd hrest (ih ⟨e, hin, hm⟩)

theorem mem_setKey (m : List (String × Payload)) (k : String) (v : Payload) :
    ∀ p ∈ setKey m k v, p ∈ m ∨ p = (k, v) := by
  induction m with
  | nil =>
    intro p hp
    simp only [setKey, List.mem_singleton] at hp
    exact Or.inr hp
  | cons q rest ih =>
    obtain ⟨k1, v1⟩ := q
    intro p hp
    by_cases he : k1 == k
    · simp only [setKey, he, if_true] at hp
      rcases List.mem_cons.mp hp with rfl | hm
      · exact Or.inr rfl
      · exact Or.inl (List.mem_cons_of_mem _ hm)
    · simp only [setKey, he, Bool.false_eq_true, if_false] at hp
      rcases List.mem_cons.mp hp with rfl | hm
      · exact Or.inl (List.mem_cons_self _ _)
      · rcases ih p hm with hin | rfl
        · exact Or.inl (List.mem_cons_of_mem _ hin)
        · exact Or.inr rfl

theorem bucket_payloads (es : List Event) : ∀ (b : PhaseBuckets) (p : Phase) q,
    q ∈ (es.foldl addEvent b).get p → q ∈ b.get p ∨ ∃ e ∈ es, q.2 = e.payload := by
  induction es with
  | nil => intro b p q hq; exact Or.inl hq
  | cons e rest ih =>
    intro b p q hq
    rw [List.foldl_cons] at hq
    rcases ih (addEvent b e) p q hq with hm | ⟨f, hf, hfp⟩
    · cases hdec : decodePhase e.name with
      | none =>
        rw [addEvent_untagged b e hdec] at hm
        exact Or.inl hm
      | some pn =>
        obtain ⟨p2, n2⟩ := pn
        by_cases hp : p2 = p
        · subst hp
          rw [get_addEvent_match b e p2 n2 hdec] at hm
          rcases mem_setKey (b.get p2) n2 e.payload q hm with hin | rfl
          · exact Or.inl hin
          · exact Or.inr ⟨e, by simp, rfl⟩
        · rw [get_addEvent_other b e p p2 n2 hdec hp] at hm
          exact Or.inl hm
    · exact Or.inr ⟨f, by simp [hf], hfp⟩

theorem mem_insertKey (q : String × Payload) (m : List (String × Payload)) :
    ∀ p ∈ insertKey q m, p = q ∨ p ∈ m := by
  induction m with
  | nil =>
    intro p hp
    simp only [insertKey, List.mem_singleton] at hp
    exact Or.inl hp
  | cons r rest ih =>
    intro p hp
    unfold insertKey at hp
    by_cases hle : lexLe (codePoints q.1) (codePoints r.1)
    · rw [if_pos hle] at hp
      rcases List.mem_cons.mp hp with rfl | hm
      · exact Or.inl rfl
      · exact Or.inr hm
    · rw [if_neg hle] at hp
      rcases List.mem_cons.mp hp with rfl | hm
      · exact Or.inr (List.mem_cons_self _ _)
      · rcases ih p hm with rfl | hin
        · exact Or.inl rfl
        · exact Or.inr (List.mem_cons_of_mem _ hin)

theorem mem_sortKeys (m : List (String × Payload)) : ∀ p ∈ sortKeys m, p ∈ m := by
  induction m with
  | nil => intro p hp; simp [sortKeys] at hp
  | cons q rest ih =>
    intro p hp
    rw [sortKeys] at hp
    rcases mem_insertKey q (sortKeys rest) p hp with rfl | hm
    · exact List.mem_cons_self _ _
    · exact List.mem_cons_of_mem _ (ih p hm)

theorem marshalEntries_total (m : List (String × Payload))
    (h : ∀ p ∈ m, marshalPayload p.2 ≠ none) : ∃ js, marshalEntries m = some js := by
  induction m with
  | nil => exact ⟨[], rfl⟩
  | cons q rest ih =>
    obtain ⟨k, v⟩ := q
    obtain ⟨js, hjs⟩ := ih (fun p hp => h p (List.mem_cons_of_mem _ hp))
    cases hv : marshalPayload v with
    | none => exact absurd hv (h (k, v) (List.mem_cons_self _ _))
    | some j =>
      refine ⟨(jsonEncodeString (codePoints k) ++ 58 :: j) :: js, ?_⟩
      rw [marshalEntries, hv, hjs]

theorem marshalObj_total (m : List (String × Payload))
    (h : ∀ p ∈ m, marshalPayload p.2 ≠ none) : ∃ j, marshalObj m = some j := by
  obtain ⟨js, hjs⟩ := marshalEntries_total (sortKeys m)
    (fun p hp => h p (mem_sortKeys m p hp))
  exact ⟨123 :: joinComma js ++ [125], by rw [marshalObj, hjs]; rfl⟩

theorem getHeader_setHeader_ne (h : HeaderMap) (k k2 : String) (v : List Nat)
    (hne : k2 ≠ k) : getHeader (setHeader h k2 v) k = getHeader h k := by
  induction h with
  | nil => simp [setHeader, getHeader, hne]
  | cons q rest ih =>
    obtain ⟨k1, v1⟩ := q
    by_cases he : k1 == k2
    · have hk : k1 = k2 := by simpa using he
      subst hk
      simp [setHeader, getHeader, hne]
    · simp only [setHeader, he, Bool.false_eq_true, if_false, getHeader]
      by_cases h2 : k1 == k
      · simp [h2]
      · simp [h2, ih]

theorem getHeader_setHeader_self (h : HeaderMap) (k : String) (v : List Nat) :
    getHeader (setHeader h k v) k = some v := by
  induction h with
  | nil => simp [setHeader, getHeader]
  | cons q rest ih =>
    obtain ⟨k1, v1⟩ := q
    by_cases he : k1 == k
    · simp [setHeader, he, getHeader]
    · simp only [setHeader, he, Bool.false_eq_true, if_false, getHeader]
      exact ih

theorem commitLoop_getHeader_other (ps : List Phase) : ∀ (b : PhaseBuckets) (h : HeaderMap)
    (k : String), (∀ q ∈ ps, phaseStr q ≠ k) →
    getHeader (commitLoop b h ps).1 k = getHeader h k := by
  induction ps with
  | nil => intro b h k _; rfl
  | cons p ps ih =>
    intro b h k hk
    rw [commitLoop]
    by_cases he : (b.get p).isEmpty
    · rw [if_pos he]
      exact ih b h k (fun q hq => hk q (List.mem_cons_of_mem _ hq))
    · rw [if_neg he]
      cases hm : marshalASCIISafe (b.get p) with
      | none => rfl
      | some v =>
        rw [ih b _ k (fun q hq => hk q (List.mem_cons_of_mem _ hq))]
        exact getHeader_setHeader_ne h k (phaseStr p) v (hk p (List.mem_cons_self _ _))

theorem commitLoop_getHeader_mem (ps : List Phase) : ∀ (b : PhaseBuckets) (h : HeaderMap)
    (p : Phase) (j : List Nat), p ∈ ps → (b.get p).isEmpty = false →
    marshalObj (b.get p) = some j →
    (∀ q ∈ ps, (b.get q).isEmpty = false → marshalObj (b.get q) ≠ none) →
    (∀ q ∈ ps, q ≠ p → phaseStr q ≠ phaseStr p) →
    getHeader (commitLoop b h ps).1 (phaseStr p) = some (escapeNonASCII j) := by
  induction ps with
  | nil => intro b h p j hp; simp at hp
  | cons q ps ih =>
    intro b h p j hp hne hj hser hinj
    rcases List.mem_cons.mp hp with rfl | hin
    · rw [commitLoop, if_neg (by simp [hne])]
      rw [show marshalASCIISafe (b.get p) = some (escapeNonASCII j) from by
        simp [marshalASCIISafe, hj]]
      by_cases hmem : p ∈ ps
      · exact ih b _ p j hmem hne hj
          (fun r hr h2 => hser r (List.mem_cons_of_mem _ hr) h2)
          (fun r hr h2 => hinj r (List.mem_cons_of_mem _ hr) h2)
      · rw [commitLoop_getHeader_other ps b _ (phaseStr p) ?_]
        · exact getHeader_setHeader_self h (phaseStr p) (escapeNonASCII j)
        · intro r hr
          exact hinj r (List.mem_cons_of_mem _ hr) (fun hrp => hmem (hrp ▸ hr))
    · rw [commitLoop]
      by_cases he : (b.get q).isEmpty
      · rw [if_pos he]
        exact ih b h p j hin hne hj
          (fun r hr h2 => hser r (List.mem_cons_of_mem _ hr) h2)
          (fun r hr h2 => hinj r (List.mem_cons_of_mem _ hr) h2)
      · rw [if_neg he]
        cases hm : marshalObj (b.get q) with
        | none =>
          exact absurd hm (hser q (List.mem_cons_self _ _) (by simpa using he))
        | some j2 =>
          rw [show marshalASCIISafe (b.get q) = some (escapeNonASCII j2) from by
            simp [marshalASCIISafe, hm]]
          exact ih b _ p j hin hne hj
            (fun r hr h2 => hser r (List.mem_cons_of_mem _ hr) h2)
            (fun r hr h2 => hinj r (List.mem_cons_of_mem _ hr) h2)

/-- C5: an event appended with no recognized phase token is assigned the
default Immediate phase during commitEvents: the converted copy lands in
the Immediate bucket under its bare name, and on an incremental exchange
the commit writes the HX-Trigger header carrying that bucket. -/
theorem default_phase_delivery (c : Context) (resH : HeaderMap) (req : ReqHeaders) (e : Event)
    (hguard : c.eventsCommitted = false) (hreq : IsHtmxRequest req = true)
    (he : e ∈ c.events) (hu : hasPhaseToken e.name = false)
    (hser : ∀ f ∈ c.events, marshalPayload f.payload ≠ none) :
    lookupKey ((groupEvents (convertEvents c.events)).get .Immediate) e.name ≠ none ∧
      ∃ j, marshalObj ((groupEvents (convertEvents c.events)).get .Immediate) = some j ∧
        getHeader (commitEvents c resH req).2 "HX-Trigger" = some (escapeNonASCII j) := by
  have hmem : (⟨"HX-Trigger:" ++ e.name, e.payload⟩ : Event) ∈ convertEvents c.events := by
    unfold convertEvents
    refine List.mem_map.mpr ⟨e, he, ?_⟩
    rw [hu]
    simp
  have hlook : lookupKey ((groupEvents (convertEvents c.events)).get .Immediate) e.name ≠
      none := by
    rw [lookup_groupEvents]
    apply lastMatch_of_mem
    refine ⟨_, hmem, ?_⟩
    unfold matchEvent
    rw [decodePhase_default]
    simp
  have hne : ((groupEvents (convertEvents c.events)).get .Immediate).isEmpty = false := by
    cases hbk : (groupEvents (convertEvents c.events)).get .Immediate with
    | nil =>
      exfalso
      rw [hbk] at hlook
      exact hlook rfl
    | cons q rest => rfl
  have hserb : ∀ (p : Phase), ∀ q ∈ (groupEvents (convertEvents c.events)).get p,
      marshalPayload q.2 ≠ none := by
    intro p q hq
    rw [groupEvents] at hq
    rcases bucket_payloads (convertEvents c.events) ⟨[], [], []⟩ p q hq with h0 | ⟨f, hf, hfp⟩
    · cases p <;> simp [PhaseBuckets.get] at h0
    · unfold convertEvents at hf
      obtain ⟨g, hg, rfl⟩ := List.mem_map.mp hf
      have hp2 : (if hasPhaseToken g.name = true then g
          else (⟨"HX-Trigger:" ++ g.name, g.payload⟩ : Event)).payload = g.payload := by
        split <;> rfl
      rw [hfp, hp2]
      exact hser g hg
  obtain ⟨j, hj⟩ := marshalObj_total _ (hserb .Immediate)
  refine ⟨hlook, j, hj, ?_⟩
  have hcommit : (commitEvents c resH req).2 =
      (commitLoop (groupEvents (convertEvents c.events)) resH stdPhaseOrder).1 := by
    rw [commitEvents, if_neg (by simp [hguard])]
    rw [Commit, hreq]
    rfl
  rw [hcommit]
  have := commitLoop_getHeader_mem stdPhaseOrder (groupEvents (convertEvents c.events)) resH
    .Immediate j (by simp [stdPhaseOrder]) hne hj
    (by
      intro q hq hqe
      obtain ⟨j2, hj2⟩ := marshalObj_total _ (hserb q)
      simp [hj2])
    (by decide)
  exact this

/-- Witness for C5 at a concrete context holding one untagged event, on a
concrete incremental request. -/
theorem default_phase_delivery_witness :
    lookupKey ((groupEvents (convertEvents [⟨"hello", Payload.null⟩])).get .Immediate)
        "hello" ≠ none ∧
      ∃ j, marshalObj ((groupEvents (convertEvents [⟨"hello", Payload.null⟩])).get
          .Immediate) = some j ∧
        getHeader (commitEvents ⟨[⟨"hello", Payload.null⟩], false⟩ []
          [("HX-Request", "true")]).2 "HX-Trigger" = some (escapeNonASCII j) :=
  default_phase_delivery ⟨[⟨"hello", Payload.null⟩], false⟩ [] [("HX-Request", "true")]
    ⟨"hello", Payload.null⟩ (by decide) (by decide) (by decide) (by decide)
    (by decide)

-- the error path of Commit: the loop stops at the first failing bucket

theorem isEmpty_false_of_ne_nil (m : List (String × Payload)) (h : m ≠ []) :
    m.isEmpty = false := by
  cases m with
  | nil => exact absurd rfl h
  | cons q rest => rfl

/-- C7 counterexample: with a failing Immediate bucket and a healthy
AfterSwap bucket, Commit returns the error for the Immediate phase and
writes no header at all, so the non-failing AfterSwap bucket is not
committed even though it is non-empty and serializes. -/
theorem partial_commit_counterexample :
    Commit [] [("HX-Request", "true")]
        [⟨"HX-Trigger:bad", .unserializable⟩, ⟨"HX-Trigger-After-Swap:good", .null⟩] =
      ([], some "marshal events for HX-Trigger") ∧
      (groupEvents [⟨"HX-Trigger:bad", .unserializable⟩,
        ⟨"HX-Trigger-After-Swap:good", .null⟩]).afterSwap ≠ [] ∧
      marshalObj (groupEvents [⟨"HX-Trigger:bad", .unserializable⟩,
        ⟨"HX-Trigger-After-Swap:good", .null⟩]).afterSwap ≠ none := by
  refine ⟨by decide, by decide, by decide⟩

/-- C7 as amended: when JSON serialization fails for a phase bucket,
Commit stops at the first failing bucket in processing order and returns a
single error naming that phase; headers set for buckets processed earlier
remain set, and buckets from the failing one onward are not written. -/
theorem error_aborts_commit (resH : HeaderMap) (req : ReqHeaders) (es : List Event)
    (hreq : IsHtmxRequest req = true) :
    (((groupEvents es).immediate ≠ [] ∧ marshalObj (groupEvents es).immediate = none) →
      Commit resH req es = (resH, some "marshal events for HX-Trigger")) ∧
    (∀ j1, marshalObj (groupEvents es).immediate = some j1 →
      (groupEvents es).afterSwap ≠ [] → marshalObj (groupEvents es).afterSwap = none →
      Commit resH req es =
        ((if (groupEvents es).immediate.isEmpty then resH
          else setHeader resH "HX-Trigger" (escapeNonASCII j1)),
         some "marshal events for HX-Trigger-After-Swap")) ∧
    (∀ j1 j2, marshalObj (groupEvents es).immediate = some j1 →
      marshalObj (groupEvents es).afterSwap = some j2 →
      (groupEvents es).afterSettle ≠ [] → marshalObj (groupEvents es).afterSettle = none →
      Commit resH req es =
        ((if (groupEvents es).afterSwap.isEmpty then
            (if (groupEvents es).immediate.isEmpty then resH
             else setHeader resH "HX-Trigger" (escapeNonASCII j1))
          else
            setHeader
              (if (groupEvents es).immediate.isEmpty then resH
               else setHeader resH "HX-Trigger" (escapeNonASCII j1))
              "HX-Trigger-After-Swap" (escapeNonASCII j2)),
         some "marshal events for HX-Trigger-After-Settle")) := by
  have hcommit : Commit resH req es = commitLoop (groupEvents es) resH stdPhaseOrder := by
    rw [Commit, hreq]
    rfl
  refine ⟨?_, ?_, ?_⟩
  · rintro ⟨hni, hm⟩
    rw [hcommit, stdPhaseOrder, commitLoop,
      if_neg (by simp [PhaseBuckets.get, isEmpty_false_of_ne_nil _ hni])]
    rw [show marshalASCIISafe ((groupEvents es).get .Immediate) = none from by
      simp [marshalASCIISafe, PhaseBuckets.get, hm]]
    exact congrArg (fun msg => (resH, some msg)) (by decide)
  · intro j1 hj1 hni2 hm2
    rw [hcommit, stdPhaseOrder, commitLoop]
    by_cases hie : (groupEvents es).immediate.isEmpty
    · rw [if_pos (show ((groupEvents es).get .Immediate).isEmpty = true from by
          simpa [PhaseBuckets.get] using hie), if_pos hie, commitLoop,
        if_neg (by simp [PhaseBuckets.get, isEmpty_false_of_ne_nil _ hni2])]
      rw [show marshalASCIISafe ((groupEvents es).get .AfterSwap) = none from by
        simp [marshalASCIISafe, PhaseBuckets.get, hm2]]
      exact congrArg (fun msg => (resH, some msg)) (by decide)
    · rw [if_neg (show ¬ ((groupEvents es).get .Immediate).isEmpty = true from by
          simpa [PhaseBuckets.get] using hie), if_neg hie]
      rw [show marshalASCIISafe ((groupEvents es).get .Immediate) =
        some (escapeNonASCII j1) from by simp [marshalASCIISafe, PhaseBuckets.get, hj1]]
      show commitLoop (groupEvents es)
        (setHeader resH (phaseStr .Immediate) (escapeNonASCII j1))
        [Phase.AfterSwap, Phase.AfterSettle] = _
      rw [commitLoop, if_neg (by simp [PhaseBuckets.get, isEmpty_false_of_ne_nil _ hni2])]
      rw [show marshalASCIISafe ((groupEvents es).get .AfterSwap) = none from by
        simp [marshalASCIISafe, PhaseBuckets.get, hm2]]
      exact congrArg
        (fun msg => (setHeader resH "HX-Trigger" (escapeNonASCII j1), some msg))
        (by decide)
  · intro j1 j2 hj1 hj2 hni3 hm3
    rw [hcommit, stdPhaseOrder, commitLoop]
    by_cases hie : (groupEvents es).immediate.isEmpty
    · rw [if_pos (show ((groupEvents es).get .Immediate).isEmpty = true from by
          simpa [PhaseBuckets.get] using hie), if_pos hie, commitLoop]
      by_cases hse : (groupEvents es).afterSwap.isEmpty
      · rw [if_pos (show ((groupEvents es).get .AfterSwap).isEmpty = true from by
            simpa [PhaseBuckets.get] using hse), if_pos hse, commitLoop,
          if_neg (by simp [PhaseBuckets.get, isEmpty_false_of_ne_nil _ hni3])]
        rw [show marshalASCIISafe ((groupEvents es).get .AfterSettle) = none from by
          simp [marshalASCIISafe, PhaseBuckets.get, hm3]]
        exact congrArg (fun msg => (resH, some msg)) (by decide)
      · rw [if_neg (show ¬ ((groupEvents es).get .AfterSwap).isEmpty = true from by
            simpa [PhaseBuckets.get] using hse), if_neg hse]
        rw [show marshalASCIISafe ((groupEvents es).get .AfterSwap) =
          some (escapeNonASCII j2) from by simp [marshalASCIISafe, PhaseBuckets.get, hj2]]
        show commitLoop (groupEvents es)
          (setHeader resH (phaseStr .AfterSwap) (escapeNonASCII j2))
          [Phase.AfterSettle] = _
        rw [commitLoop, if_neg (by simp [PhaseBuckets.get, isEmpty_false_of_ne_nil _ hni3])]
        rw [show marshalASCIISafe ((groupEvents es).get .AfterSettle) = none from by
          simp [marshalASCIISafe, PhaseBuckets.get, hm3]]
        exact congrArg
          (fun msg => (setHeader resH "HX-Trigger-After-Swap" (escapeNonASCII j2), some msg))
          (by decide)
    · rw [if_neg (show ¬ ((groupEvents es).get .Immediate).isEmpty = true from by
          simpa [PhaseBuckets.get] using hie), if_neg hie]
      rw [show marshalASCIISafe ((groupEvents es).get .Immediate) =
        some (escapeNonASCII j1) from by simp [marshalASCIISafe, PhaseBuckets.get, hj1]]
      show commitLoop (groupEvents es)
        (setHeader resH (phaseStr .Immediate) (escapeNonASCII j1))
        [Phase.AfterSwap, Phase.AfterSettle] = _
      rw [commitLoop]
      by_cases hse : (groupEvents es).afterSwap.isEmpty
      · rw [if_pos (show ((groupEvents es).get .AfterSwap).isEmpty = true from by
            simpa [PhaseBuckets.get] using hse), if_pos hse, commitLoop,
          if_neg (by simp [PhaseBuckets.get, isEmpty_false_of_ne_nil _ hni3])]
        rw [show marshalASCIISafe ((groupEvents es).get .AfterSettle) = none from by
          simp [marshalASCIISafe, PhaseBuckets.get, hm3]]
        exact congrArg
          (fun msg => (setHeader resH "HX-Trigger" (escapeNonASCII j1), some msg))
          (by decide)
      · rw [if_neg (show ¬ ((groupEvents es).get .AfterSwap).isEmpty = true from by
            simpa [PhaseBuckets.get] using hse), if_neg hse]
        rw [show marshalASCIISafe ((groupEvents es).get .AfterSwap) =
          some (escapeNonASCII j2) from by simp [marshalASCIISafe, PhaseBuckets.get, hj2]]
        show commitLoop (groupEvents es)
          (setHeader (setHeader resH (phaseStr .Immediate) (escapeNonASCII j1))
            (phaseStr .AfterSwap) (escapeNonASCII j2))
          [Phase.AfterSettle] = _
        rw [commitLoop, if_neg (by simp [PhaseBuckets.get, isEmpty_false_of_ne_nil _ hni3])]
        rw [show marshalASCIISafe ((groupEvents es).get .AfterSettle) = none from by
          simp [marshalASCIISafe, PhaseBuckets.get, hm3]]
        exact congrArg
          (fun msg =>
            (setHeader (setHeader resH "HX-Trigger" (escapeNonASCII j1))
              "HX-Trigger-After-Swap" (escapeNonASCII j2), some msg))
          (by decide)

/-- Witness for C7 as amended: a failing AfterSwap bucket after a healthy
Immediate bucket keeps the already-written Immediate header and reports
the AfterSwap phase. -/
theorem error_aborts_commit_witness :
    Commit [] [("HX-Request", "true")]
        [⟨"HX-Trigger:x", Payload.null⟩, ⟨"HX-Trigger-After-Swap:bad", .unserializable⟩] =
      ((if (groupEvents [⟨"HX-Trigger:x", Payload.null⟩,
            ⟨"HX-Trigger-After-Swap:bad", .unserializable⟩]).immediate.isEmpty then []
        else setHeader [] "HX-Trigger"
          (escapeNonASCII (123 :: codePoints "\"x\":null" ++ [125]))),
       some "marshal events for HX-Trigger-After-Swap") :=
  (error_aborts_commit [] [("HX-Request", "true")]
      [⟨"HX-Trigger:x", Payload.null⟩, ⟨"HX-Trigger-After-Swap:bad", .unserializable⟩]
      (by decide)).2.1
    (123 :: codePoints "\"x\":null" ++ [125]) (by decide) (by decide) (by decide)

-- serialization failures in the inline-script channel

theorem toastFragment_none (e : Event) (h : marshalPayload e.payload = none) :
    toastFragment e = none := by
  unfold toastFragment
  split
  · rfl
  · split
    · rfl
    · rw [h]
      rfl

theorem marshalRecords_none (es : List Event) (h : ∃ e ∈ es, marshalEventRecord e = none) :
    marshalRecords es = none := by
  induction es with
  | nil => simp at h
  | cons f rest ih =>
    obtain ⟨e, he, hm⟩ := h
    cases hf : marshalEventRecord f with
    | none => simp [marshalRecords, hf]
    | some r =>
      rcases List.mem_cons.mp he with rfl | hin
      · exact absurd hm (by simp [hf])
      · simp [marshalRecords, hf, ih ⟨e, hin, hm⟩]

/-- C8 counterexample: on a full-page exchange, one unserializable payload
suppresses the whole initial-events block: the serializable untagged event
named ok is not rendered either, against only that event being skipped. -/
theorem render_skip_counterexample :
    RenderInitialEvents [] [⟨"bad", .unserializable⟩, ⟨"ok", .null⟩] = [] ∧
      hasPhaseToken "ok" = false ∧ marshalPayload Payload.null ≠ none ∧
      IsHtmxRequest [] = false := by
  refine ⟨by decide, by decide, by decide, by decide⟩

/-- C8 as amended: RenderToasts skips exactly the event whose payload
fails to serialize and still renders the rest; RenderInitialEvents, whose
single array marshal covers all untagged events, instead drops the whole
data block when any untagged event fails; neither render ever fails. -/
theorem render_error_skips :
    (∀ (req : ReqHeaders) (es1 es2 : List Event) (e : Event),
        marshalPayload e.payload = none →
        RenderToasts req (es1 ++ e :: es2) = RenderToasts req (es1 ++ es2)) ∧
      (∀ (req : ReqHeaders) (es : List Event), IsHtmxRequest req = false →
        (∃ e ∈ es, hasPhaseToken e.name = false ∧ marshalPayload e.payload = none) →
        RenderInitialEvents req es = []) := by
  constructor
  · intro req es1 es2 e hm
    unfold RenderToasts
    by_cases hh : IsHtmxRequest req
    · rw [if_pos hh, if_pos hh]
    · rw [if_neg hh, if_neg hh]
      simp only [List.filterMap_append, List.filterMap_cons, toastFragment_none e hm]
  · rintro req es hreq ⟨e, he, hu, hm⟩
    have hmem : e ∈ es.filter (fun f => ! hasPhaseToken f.name) :=
      List.mem_filter.mpr ⟨he, by simp [hu]⟩
    have hne : (es.filter (fun f => ! hasPhaseToken f.name)).isEmpty = false := by
      cases h2 : es.filter (fun f => ! hasPhaseToken f.name) with
      | nil => rw [h2] at hmem; simp at hmem
      | cons q rest => rfl
    have harr : marshalEventArray (es.filter (fun f => ! hasPhaseToken f.name)) = none := by
      unfold marshalEventArray
      rw [marshalRecords_none _ ⟨e, hmem, by unfold marshalEventRecord; rw [hm]; rfl⟩]
      rfl
    simp [RenderInitialEvents, hreq, hne, harr]

/-- Witness for C8 as amended at concrete full-page inputs: a failing
toast among good toasts is skipped, and a failing untagged event empties
the initial-events block. -/
theorem render_error_skips_witness :
    RenderToasts [] [⟨"toast", .str "a"⟩, ⟨"toast", .unserializable⟩] =
        RenderToasts [] [⟨"toast", .str "a"⟩] ∧
      RenderInitialEvents [] [⟨"bad", .unserializable⟩] = [] :=
  ⟨render_error_skips.1 [] [⟨"toast", .str "a"⟩] [] ⟨"toast", .unserializable⟩ (by decide),
    render_error_skips.2 [] [⟨"bad", .unserializable⟩] (by decide)
      ⟨⟨"bad", .unserializable⟩, by decide, by decide, by decide⟩⟩

-- inclusion of untagged events in the inline-script channel output

theorem containsSeg_mono (p m x y : List Nat) (h : containsSeg p m) :
    containsSeg p (x ++ m ++ y) := by
  obtain ⟨s, t, rfl⟩ := h
  exact ⟨x ++ s, t ++ y, by simp [List.append_assoc]⟩

theorem containsSeg_joinComma (rs : List (List Nat)) (r : List Nat) (h : r ∈ rs) :
    containsSeg r (joinComma rs) := by
  induction rs with
  | nil => simp at h
  | cons r0 rest ih =>
    rcases List.mem_cons.mp h with rfl | hin
    · cases rest with
      | nil => exact ⟨[], [], by simp [joinComma]⟩
      | cons r1 rest2 => exact ⟨[], 44 :: joinComma (r1 :: rest2), by simp [joinComma]⟩
    · cases rest with
      | nil => simp at hin
      | cons r1 rest2 =>
        obtain ⟨s, t, hst⟩ := ih hin
        exact ⟨r0 ++ 44 :: s, t, by simp [joinComma, hst, List.append_assoc]⟩

theorem containsSeg_flatten (l : List (List Nat)) (x : List Nat) (h : x ∈ l) :
    containsSeg x l.flatten := by
  induction l with
  | nil => simp at h
  | cons y ys ih =>
    rcases List.mem_cons.mp h with rfl | hin
    · exact ⟨[], ys.flatten, by simp⟩
    · obtain ⟨s, t, hst⟩ := ih hin
      exact ⟨y ++ s, t, by simp [hst, List.append_assoc]⟩

theorem marshalRecords_mem (l : List Event) (h : ∀ f ∈ l, marshalEventRecord f ≠ none) :
    ∃ rs, marshalRecords l = some rs ∧
      ∀ e ∈ l, ∀ r, marshalEventRecord e = some r → r ∈ rs := by
  induction l with
  | nil => exact ⟨[], rfl, by simp⟩
  | cons f rest ih =>
    obtain ⟨rs, hrs, hmem⟩ := ih (fun g hg => h g (List.mem_cons_of_mem _ hg))
    cases hf : marshalEventRecord f with
    | none => exact absurd hf (h f (List.mem_cons_self _ _))
    | some rf =>
      refine ⟨rf :: rs, by rw [marshalRecords, hf, hrs], ?_⟩
      intro e he r hr
      rcases List.mem_cons.mp he with rfl | hin
      · rw [hf] at hr
        exact (Option.some_inj.mp hr) ▸ List.mem_cons_self _ _
      · exact List.mem_cons_of_mem _ (hmem e hin r hr)

theorem toastFragment_not_toast (e : Event) (h : e.name ≠ "toast") :
    toastFragment e = none := by
  unfold toastFragment
  split
  · rfl
  · rw [if_pos (by simp [h])]

/-- C9 counterexample: an untagged event not named toast is not included
in the RenderToasts output on a full-page exchange: the output is empty,
so RenderToasts does not include every untagged event. -/
theorem toast_inclusion_counterexample :
    RenderToasts [] [⟨"auth-changed", .null⟩] = [] ∧
      hasPhaseToken "auth-changed" = false ∧ IsHtmxRequest [] = false := by
  refine ⟨by decide, by decide, by decide⟩

/-- C9 as amended: on a full-page exchange RenderInitialEvents includes
every untagged event, provided the event array serializes; RenderToasts
includes exactly the untagged events named toast whose payload serializes,
and renders nothing when no event is named toast. -/
theorem untagged_inclusion :
    (∀ (req : ReqHeaders) (es : List Event) (e : Event), IsHtmxRequest req = false →
        e ∈ es → hasPhaseToken e.name = false →
        (∀ f ∈ es, hasPhaseToken f.name = false → marshalPayload f.payload ≠ none) →
        ∃ r, marshalEventRecord e = some r ∧ containsSeg r (RenderInitialEvents req es)) ∧
      (∀ (req : ReqHeaders) (es : List Event) (e : Event) (j : List Nat),
        IsHtmxRequest req = false → e ∈ es → hasPhaseToken e.name = false →
        e.name = "toast" → marshalPayload e.payload = some j →
        containsSeg (toastMarkup j) (RenderToasts req es)) ∧
      (∀ (req : ReqHeaders) (es : List Event), (∀ e ∈ es, e.name ≠ "toast") →
        RenderToasts req es = []) := by
  refine ⟨?_, ?_, ?_⟩
  · intro req es e hreq he hu hser
    have hserf : ∀ f ∈ es.filter (fun g => ! hasPhaseToken g.name),
        marshalEventRecord f ≠ none := by
      intro f hf
      obtain ⟨hfe, hft⟩ := List.mem_filter.mp hf
      have := hser f hfe (by simpa using hft)
      unfold marshalEventRecord
      cases hp : marshalPayload f.payload with
      | none => exact absurd hp this
      | some j => simp
    obtain ⟨rs, hrs, hmem⟩ := marshalRecords_mem _ hserf
    have hemem : e ∈ es.filter (fun g => ! hasPhaseToken g.name) :=
      List.mem_filter.mpr ⟨he, by simp [hu]⟩
    have hne : (es.filter (fun g => ! hasPhaseToken g.name)).isEmpty = false := by
      cases h2 : es.filter (fun g => ! hasPhaseToken g.name) with
      | nil => rw [h2] at hemem; simp at hemem
      | cons q rest => rfl
    cases hp : marshalPayload e.payload with
    | none => exact absurd hp (hser e he hu)
    | some j =>
      refine ⟨123 :: codePoints "\"name\":" ++ jsonEncodeString (codePoints e.name) ++
        codePoints ",\"payload\":" ++ j ++ [125], by unfold marshalEventRecord; rw [hp]; rfl, ?_⟩
      have harr : marshalEventArray (es.filter (fun g => ! hasPhaseToken g.name)) =
          some (91 :: joinComma rs ++ [93]) := by
        unfold marshalEventArray
        rw [hrs]
        rfl
      rw [show RenderInitialEvents req es =
        codePoints "<script type=\"application/json\" id=\"initial-events\">" ++
          (91 :: joinComma rs ++ [93]) ++ codePoints "</script>" from by
        simp [RenderInitialEvents, hreq, hne, harr]]
      apply containsSeg_mono
      have hr : (123 :: codePoints "\"name\":" ++ jsonEncodeString (codePoints e.name) ++
          codePoints ",\"payload\":" ++ j ++ [125]) ∈ rs :=
        hmem e hemem _ (by unfold marshalEventRecord; rw [hp]; rfl)
      obtain ⟨s, t, hst⟩ := containsSeg_joinComma rs _ hr
      exact ⟨91 :: s, t ++ [93], by simp [hst, List.append_assoc]⟩
  · intro req es e j hreq he hu hname hj
    have hfrag : toastFragment e = some (toastMarkup j) := by
      unfold toastFragment
      rw [if_neg (by simp [hu]), if_neg (by simp [hname]), hj]
      rfl
    have hmem : toastMarkup j ∈ es.filterMap toastFragment :=
      List.mem_filterMap.mpr ⟨e, he, hfrag⟩
    have hne : (es.filterMap toastFragment).isEmpty = false := by
      cases h2 : es.filterMap toastFragment with
      | nil => rw [h2] at hmem; simp at hmem
      | cons q rest => rfl
    rw [show RenderToasts req es = (es.filterMap toastFragment).flatten from by
      simp [RenderToasts, hreq, hne]]
    exact containsSeg_flatten _ _ hmem
  · intro req es h
    unfold RenderToasts
    by_cases hh : IsHtmxRequest req
    · rw [if_pos hh]
    · rw [if_neg hh]
      rw [show es.filterMap toastFragment = [] from
        List.filterMap_eq_nil_iff.mpr (fun e he => toastFragment_not_toast e (h e he))]
      rfl

/-- Witness for C9 as amended at concrete full-page inputs with one
untagged event and one toast event. -/
theorem untagged_inclusion_witness :
    (∃ r, marshalEventRecord ⟨"auth-changed", Payload.null⟩ = some r ∧
        containsSeg r (RenderInitialEvents [] [⟨"auth-changed", Payload.null⟩])) ∧
      containsSeg (toastMarkup (jsonEncodeString (codePoints "hi")))
        (RenderToasts [] [⟨"toast", Payload.str "hi"⟩]) ∧
      RenderToasts [] [⟨"auth-changed", Payload.null⟩] = [] :=
  ⟨untagged_inclusion.1 [] [⟨"auth-changed", Payload.null⟩] ⟨"auth-changed", Payload.null⟩
      (by decide) (by decide) (by decide) (by decide),
    untagged_inclusion.2.1 [] [⟨"toast", Payload.str "hi"⟩] ⟨"toast", Payload.str "hi"⟩
      (jsonEncodeString (codePoints "hi")) (by decide) (by decide) (by decide) (by decide)
      (by decide),
    untagged_inclusion.2.2 [] [⟨"auth-changed", Payload.null⟩] (by decide)⟩
